import Mathlib

/-!
# Verification of the netconf client library core

A shallow embedding, in Lean 4, of the core data structures and algorithms of
the `netconf` Go package (NETCONF RFC 6241 client library), together with
theorems settling the specification claims about them.

Conventions of the embedding:

* Go byte slices become `List Nat` (each element a byte value); Go strings
  become Lean `String` where the code works rune-wise.
* Go's `unicode.IsSpace` is modelled on the ASCII range (the only range the
  NETCONF framing ever meets): bytes 9–13 and 32.
* The upstream `io.Reader` of the framed `Reader` is modelled as a list of
  read results; each `session.Read` call yields the next `(bytes, error)`
  pair, and once the list is exhausted every further call yields `(0, io.EOF)`.
* Fallible operations return `Option`/`Except`; `none` plays Go's `nil` error.
* `encoding/xml` (an external standard-library collaborator, not code of this
  repository) is abstracted: where a claim needs its behaviour, either the
  XML-level decode is a function parameter, or its documented contract
  (element-name matching against an `XMLName` field tag, `xml:"ok"`,
  `xml:"rpc-error"` and `xml:",any"` field routing) is modelled over a small
  XML tree type.
-/

namespace Netconf

/-! ## Bytes, whitespace, and the message separator (reader.go) -/

/-- A Go byte, as a natural number. -/
abbrev Byte := Nat

/-- Go `unicode.IsSpace` restricted to single bytes in the ASCII range:
tab, line feed, vertical tab, form feed, carriage return, space. -/
def isSpaceByte (b : Byte) : Bool :=
  b == 9 || b == 10 || b == 11 || b == 12 || b == 13 || b == 32

/-- Go `bytes.TrimRightFunc(l, unicode.IsSpace)`: drop trailing whitespace. -/
def trimRightSpace (l : List Byte) : List Byte :=
  (l.reverse.dropWhile isSpaceByte).reverse

/-- Go `bytes.TrimSpace(l)`: drop leading and trailing whitespace. -/
def trimSpaceBytes (l : List Byte) : List Byte :=
  ((l.dropWhile isSpaceByte).reverse.dropWhile isSpaceByte).reverse

/-- The NETCONF 1.0 end-of-message delimiter `]]>]]>` as bytes
(`messageSeparatorBytes` in the source). -/
def messageSeparatorBytes : List Byte := [93, 93, 62, 93, 93, 62]

/-- Boolean "is `p` a leading segment of `l`" on byte lists. -/
def isPrefixBytes : List Byte → List Byte → Bool
  | [], _ => true
  | _ :: _, [] => false
  | a :: as, b :: bs => a == b && isPrefixBytes as bs

/-- The message separator occurs in `s` starting at index `k`. -/
def occursAtB (s : List Byte) (k : Nat) : Bool :=
  isPrefixBytes messageSeparatorBytes (s.drop k)

/-- Go `bytes.HasSuffix(l, messageSeparatorBytes)`. -/
def endsWithSep (l : List Byte) : Bool :=
  isPrefixBytes messageSeparatorBytes.reverse l.reverse

/-- Scan downward from index `i` for an occurrence of the separator. -/
def lastOccAux (s : List Byte) : Nat → Option Nat
  | 0 => if occursAtB s 0 then some 0 else none
  | i + 1 => if occursAtB s (i + 1) then some (i + 1) else lastOccAux s i

/-- Go `bytes.LastIndex(s, messageSeparatorBytes)`: index of the last occurrence
of the separator in `s`, if any. -/
def findLastOcc (s : List Byte) : Option Nat :=
  lastOccAux s s.length

/-! ## The framed `Reader` (reader.go) -/

/-- A Go error produced by the upstream reader: either `io.EOF` or any other
(non-end-of-stream) error, identified by a code. -/
inductive UpErr where
  | eof
  | custom (code : Nat)
deriving DecidableEq, Repr

/-- The upstream session reader, as the list of results its successive `Read`
calls produce. Once exhausted, every further call returns `([], io.EOF)`. -/
abbrev Upstream := List (List Byte × Option UpErr)

/-- The mutable state of `netconf.Reader`: the unread portion of the internal
`bytes.Buffer`, the `done` flag, and the preserved error `err`.  (The fixed
scratch `readBuffer` and the upstream handle are threaded separately.) -/
structure Reader where
  buffer : List Byte
  done : Bool
  err : Option UpErr
deriving DecidableEq, Repr

/-- One iteration of the loop body in `Reader.Read`: append the bytes the
session returned, preserve a non-`io.EOF` error, right-trim the accumulated
buffer and, if the trimmed tail ends with the separator, truncate the buffer
at the last separator occurrence and mark the stream done. -/
def Reader.processChunk (r : Reader) (chunk : List Byte) (e : Option UpErr) : Reader :=
  let buf := r.buffer ++ chunk
  let err' := if e ≠ none ∧ e ≠ some UpErr.eof then e else r.err
  let bTrim := trimRightSpace buf
  if endsWithSep bTrim then
    { buffer := buf.take ((findLastOcc bTrim).getD 0), done := true, err := err' }
  else
    { buffer := buf, done := r.done, err := err' }

/-- The `for !r.done && err == nil` loop of `Reader.Read`: keep pulling from
the upstream session until the separator has been found or a session read
returns a non-nil error (an exhausted upstream returns `(0, io.EOF)`). -/
def Reader.readLoop (r : Reader) (up : Upstream) : Reader × Upstream :=
  if r.done then (r, up)
  else
    match up with
    | [] => (r.processChunk [] (some UpErr.eof), [])
    | (chunk, e) :: rest =>
      let r' := r.processChunk chunk e
      if e = none then r'.readLoop rest else (r', rest)

/-- Go `Reader.Read` with a caller buffer of capacity `m`: run the accumulation
loop, then serve bytes from the internal buffer (`bytes.Buffer.Read`
semantics: an empty buffer yields `(0, io.EOF)` when `m ≠ 0`), always
preferring the preserved non-`io.EOF` error over the buffer's own result. -/
def Reader.read (r : Reader) (up : Upstream) (m : Nat) :
    (List Byte × Option UpErr) × Reader × Upstream :=
  let lr := r.readLoop up
  let r1 := lr.1
  let out := r1.buffer.take m
  let berr : Option UpErr := if r1.buffer.isEmpty && m != 0 then some UpErr.eof else none
  let retErr := if r1.err ≠ none then r1.err else berr
  ((out, retErr), { buffer := r1.buffer.drop m, done := r1.done, err := r1.err }, lr.2)

/-- Go `Reader.Reset`: clear the done flag, the buffer, and the preserved error. -/
def Reader.reset (_ : Reader) : Reader :=
  { buffer := [], done := false, err := none }

/-- Drain the reader in the manner of `io.Copy`: call `Read` with buffer
capacity `m` until it reports an error, concatenating the bytes returned.
`fuel` bounds the number of calls (any run that terminates is reproduced by a
large enough fuel). -/
def Reader.drain (fuel : Nat) (r : Reader) (up : Upstream) (m : Nat) :
    List Byte × Option UpErr :=
  match fuel with
  | 0 => ([], none)
  | fuel + 1 =>
    let step := r.read up m
    match step.1.2 with
    | some e => (step.1.1, some e)
    | none =>
      let rest := Reader.drain fuel step.2.1 step.2.2 m
      (step.1.1 ++ rest.1, rest.2)

/-- The sequence of errors returned by successive `Read` calls with caller
buffer capacities `ms`. -/
def Reader.readSeq (r : Reader) (up : Upstream) : List Nat → List (Option UpErr)
  | [] => []
  | m :: ms =>
    let step := r.read up m
    step.1.2 :: step.2.1.readSeq step.2.2 ms

/-! ## The error taxonomy (error.go)

`UnmarshalText` receives a `[]byte` in Go, and Go string comparison is
bytewise lexicographic, so this whole layer works on byte lists. -/

/-- The bytes of a (7-bit) string literal, for writing the tables readably. -/
def strBytes (s : String) : List Byte := s.data.map Char.toNat

/-- ASCII lowercasing of one byte (`bytes.ToLower` on this range). -/
def toLowerByte (b : Byte) : Byte :=
  if 65 ≤ b && b ≤ 90 then b + 32 else b

/-- Go `bytes.ToLower(bytes.TrimSpace(text))`: the key every `UnmarshalText`
implementation searches the table with. -/
def toLowerTrimBytes (text : List Byte) : List Byte :=
  (trimSpaceBytes text).map toLowerByte

/-- Go's bytewise-lexicographic string order. -/
def ltBytes : List Byte → List Byte → Bool
  | [], [] => false
  | [], _ :: _ => true
  | _ :: _, [] => false
  | a :: as, b :: bs => if a < b then true else if b < a then false else ltBytes as bs

/-- The loop body of Go's `sort.Search`: binary search for the least index in
`[i, j)` satisfying `f`, returning `j` when none does.  `fuel` only bounds the
iteration count; `fuel = n` always suffices for a search over `[0, n)`. -/
def sortSearchAux (f : Nat → Bool) : Nat → Nat → Nat → Nat
  | 0, i, _ => i
  | fuel + 1, i, j =>
    if i < j then
      if f ((i + j) / 2) then sortSearchAux f fuel i ((i + j) / 2)
      else sortSearchAux f fuel ((i + j) / 2 + 1) j
    else i

/-- Go `sort.Search(n, f)`. -/
def sortSearch (n : Nat) (f : Nat → Bool) : Nat :=
  sortSearchAux f n 0 n

/-- Go `errorSeverityStringArray`, indexed by `ErrorSeverity` value. -/
def errorSeverityStringArray : List (List Byte) :=
  [strBytes "", strBytes "error", strBytes "unknown", strBytes "warning"]

/-- Go `errorTypeStringArray`, indexed by `ErrorType` value. -/
def errorTypeStringArray : List (List Byte) :=
  [strBytes "", strBytes "application", strBytes "protocol", strBytes "rpc",
   strBytes "transport", strBytes "unknown"]

/-- Go `errorTagStringArray`, indexed by `ErrorTag` value. -/
def errorTagStringArray : List (List Byte) :=
  [strBytes "", strBytes "access-denied", strBytes "bad-attribute",
   strBytes "bad-element", strBytes "data-exists", strBytes "data-missing",
   strBytes "in-use", strBytes "invalid-value", strBytes "lock-denied",
   strBytes "malformed-message", strBytes "missing-attribute",
   strBytes "missing-element", strBytes "operation-failed",
   strBytes "operation-not-supported", strBytes "partial-operation",
   strBytes "resource-denied", strBytes "rollback-failed", strBytes "too-big",
   strBytes "unknown", strBytes "unknown-attribute", strBytes "unknown-element",
   strBytes "unknown-namespace"]

/-- Enum constants (`iota` values) used by the claims. -/
def ErrorSeverityZero : Nat := 0
def ErrorSeverityError : Nat := 1
def ErrorSeverityUnknown : Nat := 2
def ErrorSeverityWarning : Nat := 3
def ErrorTypeUnknown : Nat := 5
def ErrorTagUnknown : Nat := 18

/-- The shared shape of the three `String()` methods: index the table, falling
back to the table's "unknown" entry for out-of-range values. -/
def stringFromTable (tbl : List (List Byte)) (unknownIdx : Nat) (v : Nat) : List Byte :=
  if v < tbl.length then tbl.getD v [] else tbl.getD unknownIdx []

/-- Go `ErrorSeverity.String`. -/
def severityString (v : Nat) : List Byte :=
  stringFromTable errorSeverityStringArray ErrorSeverityUnknown v

/-- Go `ErrorType.String`. -/
def typeString (v : Nat) : List Byte :=
  stringFromTable errorTypeStringArray ErrorTypeUnknown v

/-- Go `ErrorTag.String`. -/
def tagString (v : Nat) : List Byte :=
  stringFromTable errorTagStringArray ErrorTagUnknown v

/-- Go `UnmarshalTextError{Type, Value}` (error.go, lines 16–24): the enum type
name that failed to parse and the original input text. -/
structure UnmarshalTextError where
  type : List Byte
  value : List Byte
deriving DecidableEq, Repr

/-- The shared core of the three `UnmarshalText` methods, after the input has
been lowercased and trimmed to `sText`: `sort.SearchStrings` the table (Go's
`f(i) = table[i] >= x`); on a hit return the index, on a miss return the
"unknown" value and an `UnmarshalTextError` carrying the enum name and the
original input. -/
def unmarshalCore (tbl : List (List Byte)) (enumName : List Byte) (unknownIdx : Nat)
    (sText orig : List Byte) : Nat × Option UnmarshalTextError :=
  let i := sortSearch tbl.length (fun h => !ltBytes (tbl.getD h []) sText)
  if i ≠ tbl.length ∧ tbl.getD i [] = sText then (i, none)
  else (unknownIdx, some ⟨enumName, orig⟩)

/-- An `UnmarshalText` method: lowercase and trim, then search the table. -/
def unmarshalFromTable (tbl : List (List Byte)) (enumName : List Byte) (unknownIdx : Nat)
    (text : List Byte) : Nat × Option UnmarshalTextError :=
  unmarshalCore tbl enumName unknownIdx (toLowerTrimBytes text) text

/-- Go `ErrorSeverity.UnmarshalText`. -/
def unmarshalErrorSeverity (text : List Byte) : Nat × Option UnmarshalTextError :=
  unmarshalFromTable errorSeverityStringArray (strBytes "ErrorSeverity")
    ErrorSeverityUnknown text

/-- Go `ErrorType.UnmarshalText`. -/
def unmarshalErrorType (text : List Byte) : Nat × Option UnmarshalTextError :=
  unmarshalFromTable errorTypeStringArray (strBytes "ErrorType")
    ErrorTypeUnknown text

/-- Go `ErrorTag.UnmarshalText`. -/
def unmarshalErrorTag (text : List Byte) : Nat × Option UnmarshalTextError :=
  unmarshalFromTable errorTagStringArray (strBytes "ErrorTag")
    ErrorTagUnknown text

/-! ## `ReplyError`, `Reply`, and the decode-time error scan (part_004) -/

/-- Go `ErrorInfo` (error.go): protocol/data-model specific error content. -/
structure ErrorInfo where
  badAttribute : String
  badElement : String
  badNamespace : String
  okElement : List String
  errElement : List String
  nopElement : List String
deriving DecidableEq, Repr

/-- Go `ReplyError` (error.go): one `<rpc-error>`.  The enum-typed fields carry
the numeric enum values defined above. -/
structure ReplyError where
  type : Nat
  tag : Nat
  severity : Nat
  info : ErrorInfo
  path : String
  message : String
deriving DecidableEq, Repr

/-- Go `Reply` (part_004, lines 129–135), at the record level: the `Ok` marker
and the decoded `rpc-error` entries.  (`XMLName`/`Attr`/`Data` belong to the
XML layer, modelled separately below.) -/
structure Reply where
  ok : Bool
  error : List ReplyError
deriving DecidableEq, Repr

/-- The error scan at the end of `Decoder.Decode` (part_004, lines 201–205):
return the first entry of severity `ErrorSeverityError`, if any. -/
def scanReplyErrors : List ReplyError → Option ReplyError
  | [] => none
  | e :: rest =>
    if e.severity = ErrorSeverityError then some e else scanReplyErrors rest

/-- Go `Decoder.Decode`, after the XML layer has produced the `Reply` record:
scan the reply's errors and return the first error-severity one (as the Go
error), leaving the reply itself untouched. -/
def decodeScan (r : Reply) : Option ReplyError × Reply :=
  (scanReplyErrors r.error, r)

/-! ## `SkipSep`, `Decode` and `DecodeHello` over the line stream (part_004) -/

/-- The buffered reader's remaining content as the list of newline-terminated
slices that successive `ReadSlice('\n')` calls return. -/
abbrev LineStream := List (List Byte)

/-- Go `Decoder.SkipSep`: discard lines until one whose whitespace-trimmed
content equals the message separator (consuming it), or fail with `io.EOF`
when the stream runs out. -/
def skipSep : LineStream → Except UpErr LineStream
  | [] => Except.error UpErr.eof
  | l :: rest =>
    if trimSpaceBytes l = messageSeparatorBytes then Except.ok rest
    else skipSep rest

/-- Go `HelloMessage` (session.go). -/
structure HelloMessage where
  capabilities : List String
  sessionID : Nat
deriving DecidableEq, Repr

/-- Go `Decoder.Decode` (the `ReplyError`-based variant, part_004 lines 185–208):
run the embedded `xml.Decoder.Decode` (abstracted as `xmlDecode`, which
consumes some of the line stream and produces the `Reply` record), then scan
for the first error-severity reply error.  No `SkipSep` call: the stream is
left exactly where the XML decode left it. -/
def decoderDecode (xmlDecode : LineStream → Except UpErr (Reply × LineStream))
    (s : LineStream) : Except UpErr (Option ReplyError × LineStream) :=
  match xmlDecode s with
  | Except.error e => Except.error e
  | Except.ok (r, s') => Except.ok (scanReplyErrors r.error, s')

/-- Go `Decoder.DecodeHello` (part_004 lines 160–169): run the XML decode of the
`hello` element, then `SkipSep` — consuming everything up to and including
the delimiter line. -/
def decoderDecodeHello (xmlDecode : LineStream → Except UpErr (HelloMessage × LineStream))
    (s : LineStream) : Except UpErr (HelloMessage × LineStream) :=
  match xmlDecode s with
  | Except.error e => Except.error e
  | Except.ok (h, s') =>
    match skipSep s' with
    | Except.error e => Except.error e
    | Except.ok s'' => Except.ok (h, s'')

/-! ## The XML tree layer: `Method`, `Encoder.Encode`, `Reply` decoding
(method.go, encoder.go, part_004)

`encoding/xml` is standard-library code, not part of this repository.  Its
behaviour is modelled over document trees by its documented contract: a
struct's `XMLName xml.Name` field with tag `"rpc-reply"` forces the element
name to match; `xml:"ok"` binds children named `ok`; `xml:"rpc-error"` on a
slice collects children named `rpc-error`; `xml:",any"` absorbs the rest. -/

/-- A well-formed XML element (the "payload serializes to well-formed XML"
hypothesis of the round-trip claim lets us work at tree level). -/
inductive XMLTree where
  | elem (name : String) (attrs : List (String × String)) (children : List XMLTree)

/-- Element name. -/
def XMLTree.name : XMLTree → String
  | .elem n _ _ => n

/-- Element attributes. -/
def XMLTree.attrs : XMLTree → List (String × String)
  | .elem _ a _ => a

/-- Element children. -/
def XMLTree.children : XMLTree → List XMLTree
  | .elem _ _ c => c

/-- Go `Method` (method.go): the outer element name (Go `xml.Name`, namespace
elided), the attribute list, and the payload elements. -/
structure Method where
  xmlName : String
  attr : List (String × String)
  method : List XMLTree

/-- Go `WrapMethod` (method.go): wrap payloads in the `rpc` envelope with the
given `message-id` attribute (the global counter's next value, threaded here
as an argument). -/
def WrapMethod (messageID : String) (payload : List XMLTree) : Method :=
  { xmlName := "rpc", attr := [("message-id", messageID)], method := payload }

/-- Go `Encoder.Encode` applied to a `*Method` (encoder.go, lines 107–121), at
tree level: serialize the envelope element whose name, attributes and
children come from the `Method`.  (The `]]>]]>\n` separator written after the
document lives below the tree level.) -/
def encoderEncode (m : Method) : XMLTree :=
  XMLTree.elem m.xmlName m.attr m.method

/-- Failure of the XML unmarshal step. -/
inductive XMLDecodeError where
  | nameMismatch (want got : String)
deriving DecidableEq, Repr

/-- The `Reply` envelope as decoded at tree level. -/
structure ReplyTree where
  attr : List (String × String)
  ok : Bool
  error : List XMLTree
  data : List XMLTree

/-- Unmarshalling a document into `Reply` (part_004 lines 129–135), by the
`encoding/xml` contract: the root element must be named `rpc-reply` (the
`XMLName xml.Name \xml:"rpc-reply"\` field tag), `ok` children set the `Ok`
marker, `rpc-error` children fill `Error`, and all remaining children are
absorbed by the `xml:",any"` field `Data`. -/
def decodeReplyTree (t : XMLTree) : Except XMLDecodeError ReplyTree :=
  if t.name = "rpc-reply" then
    Except.ok
      { attr := t.attrs
        ok := t.children.any (fun c => c.name == "ok")
        error := t.children.filter (fun c => c.name == "rpc-error")
        data := t.children.filter (fun c => c.name != "ok" && c.name != "rpc-error") }
  else Except.error (XMLDecodeError.nameMismatch "rpc-reply" t.name)

/-! ## `DeadlineConn` and `Config.hasReadWriteTimeout` (part_005, config.go) -/

/-- Observable calls `DeadlineConn` makes on the wrapped `net.Conn`. -/
inductive ConnAction where
  | setReadDeadline (t : Int)
  | setWriteDeadline (t : Int)
  | connRead
  | connWrite
deriving DecidableEq, Repr

/-- Go `DeadlineConn`'s own fields (the embedded `net.Conn` is abstracted by the
`setErr`/`ioResult` parameters of `read`/`write`). -/
structure DeadlineConn where
  readTimeout : Int
  writeTimeout : Int
deriving DecidableEq, Repr

/-- Go `DeadlineConn.Read` (part_005, lines 137–144): set the read deadline to
`now + ReadTimeout`; if that fails return its error without reading;
otherwise perform the read.  Returns the Go result paired with the trace of
calls made on the underlying connection. -/
def DeadlineConn.read (c : DeadlineConn) (now : Int) (setErr : Option Nat)
    (ioResult : Nat × Option Nat) : (Nat × Option Nat) × List ConnAction :=
  match setErr with
  | some e => ((0, some e), [ConnAction.setReadDeadline (now + c.readTimeout)])
  | none => (ioResult, [ConnAction.setReadDeadline (now + c.readTimeout), ConnAction.connRead])

/-- Go `DeadlineConn.Write` (part_005, lines 148–155), mirror of `read`. -/
def DeadlineConn.write (c : DeadlineConn) (now : Int) (setErr : Option Nat)
    (ioResult : Nat × Option Nat) : (Nat × Option Nat) × List ConnAction :=
  match setErr with
  | some e => ((0, some e), [ConnAction.setWriteDeadline (now + c.writeTimeout)])
  | none => (ioResult, [ConnAction.setWriteDeadline (now + c.writeTimeout), ConnAction.connWrite])

/-- The fields of `Config` consulted by `hasReadWriteTimeout` (config.go). -/
structure Config where
  readTimeout : Int
  writeTimeout : Int
deriving DecidableEq, Repr

/-- Go `Config.hasReadWriteTimeout` (config.go, lines 62–67). -/
def Config.hasReadWriteTimeout (c : Config) : Bool :=
  if c.readTimeout ≠ 0 || c.writeTimeout ≠ 0 then true else false

/-- Go `Dial` (part_005, lines 38–45): the connection is wrapped in a
`DeadlineConn` exactly when `hasReadWriteTimeout` holds. -/
def dialWrapsDeadlineConn (c : Config) : Bool :=
  c.hasReadWriteTimeout

/-! ## `Session.ExecOne` / `goEncodDecodeOne` (part_002, lines 259–371)

The claim fixes the cancellation token to one that never fires, so the
`ctx.Done()` branches are dead and elided.  The XML encode/decode outcomes
are environment inputs; the `method` and `reply` arguments of `ExecOne` are
identified by opaque tags so the data flow is observable. -/

/-- Environment of one exchange: results of `encoder.Encode`, `WriteSep`, and
`decoder.Decode`, plus the `rpc-error` entries of the decoded reply. -/
structure ExecEnv where
  encodeErr : Option Nat
  writeSepErr : Option Nat
  decodeErr : Option Nat
  replyErrors : List ReplyError
deriving DecidableEq, Repr

/-- The error a `goEncodDecodeOne` exchange can deliver on its channel. -/
inductive ExecErr where
  | io (code : Nat)
  | replyErr (e : ReplyError)
deriving DecidableEq, Repr

/-- The observable outcome of `goEncodDecodeOne`: the channel error, the
argument each stage received (`none` when the stage was skipped), and whether
the session's framed `Reader` was reset. -/
structure ExecOutcome where
  err : Option ExecErr
  encodedArg : Option Nat
  decodedArg : Option Nat
  readerWasReset : Bool
deriving DecidableEq, Repr

/-- Go `Session.goEncodeOne` (part_002, lines 333–371), error channel value:
encode the (wrapped) method, then write the separator. -/
def goEncodeOneResult (env : ExecEnv) : Option ExecErr :=
  match env.encodeErr with
  | some c => some (ExecErr.io c)
  | none =>
    match env.writeSepErr with
    | some c => some (ExecErr.io c)
    | none => none

/-- Go `Session.goDecodeOne` (part_002, lines 295–331), error channel value:
decode into the (wrapped) target, then return the first error-severity reply
error. -/
def goDecodeOneResult (env : ExecEnv) : Option ExecErr :=
  match env.decodeErr with
  | some c => some (ExecErr.io c)
  | none =>
    match scanReplyErrors env.replyErrors with
    | some e => some (ExecErr.replyErr e)
    | none => none

/-- Go `Session.goEncodDecodeOne` (part_002, lines 263–293) with a cancellation
token that never fires: run the encode stage on `method`; if it fails, skip
decoding and deliver its error; otherwise run the decode stage — the source
passes `method`, not `reply`, to `goDecodeOne` (line 283) — and deliver its
error.  Neither path calls `Reader.Reset`. -/
def goEncodDecodeOne (method reply : Nat) (env : ExecEnv) : ExecOutcome :=
  match goEncodeOneResult env with
  | some e =>
    { err := some e, encodedArg := some method, decodedArg := none,
      readerWasReset := false }
  | none =>
    { err := goDecodeOneResult env, encodedArg := some method,
      decodedArg := some method, readerWasReset := false }

/-! # Theorems

## Byte-level helper facts -/

theorem isPrefixBytes_iff (p l : List Byte) :
    isPrefixBytes p l = true ↔ ∃ t, l = p ++ t := by
  induction p generalizing l with
  | nil => simp [isPrefixBytes]
  | cons a as ih =>
    cases l with
    | nil => simp [isPrefixBytes]
    | cons b bs =>
      simp only [isPrefixBytes, Bool.and_eq_true, beq_iff_eq, ih, List.cons_append,
        List.cons.injEq]
      constructor
      · rintro ⟨rfl, t, rfl⟩; exact ⟨t, rfl, rfl⟩
      · rintro ⟨t, rfl, rfl⟩; exact ⟨rfl, t, rfl⟩

theorem endsWithSep_iff (l : List Byte) :
    endsWithSep l = true ↔ ∃ c, l = c ++ messageSeparatorBytes := by
  unfold endsWithSep
  rw [isPrefixBytes_iff]
  constructor
  · rintro ⟨t, ht⟩
    refine ⟨t.reverse, ?_⟩
    have := congrArg List.reverse ht
    simpa using this
  · rintro ⟨c, rfl⟩
    exact ⟨c.reverse, by simp⟩

theorem occursAtB_iff (s : List Byte) (k : Nat) :
    occursAtB s k = true ↔ ∃ t, s.drop k = messageSeparatorBytes ++ t := by
  unfold occursAtB
  exact isPrefixBytes_iff _ _

theorem occursAtB_length {s : List Byte} {k : Nat} (h : occursAtB s k = true) :
    k + 6 ≤ s.length := by
  obtain ⟨t, ht⟩ := (occursAtB_iff s k).mp h
  have hlen := congrArg List.length ht
  simp [messageSeparatorBytes] at hlen
  omega

theorem occursAtB_of_append (c rest : List Byte) :
    occursAtB (c ++ (messageSeparatorBytes ++ rest)) c.length = true := by
  rw [occursAtB_iff]
  exact ⟨rest, List.drop_left c _⟩

theorem occursAtB_of_take {s : List Byte} {n j : Nat}
    (h : occursAtB (s.take n) j = true) : occursAtB s j = true := by
  obtain ⟨t, ht⟩ := (occursAtB_iff _ j).mp h
  rw [List.drop_take] at ht
  rw [occursAtB_iff]
  refine ⟨t ++ (s.drop j).drop (n - j), ?_⟩
  rw [← List.append_assoc, ← ht, List.take_append_drop]

theorem dropWhile_append_all {p : Byte → Bool} {x : List Byte} (y : List Byte)
    (h : ∀ b ∈ x, p b = true) : (x ++ y).dropWhile p = y.dropWhile p := by
  induction x with
  | nil => rfl
  | cons b x' ih =>
    rw [List.cons_append, List.dropWhile_cons]
    simp only [h b (List.mem_cons_self b x'), if_true]
    exact ih fun b hb => h b (List.mem_cons_of_mem _ hb)

theorem trimRightSpace_append_space {w : List Byte} (a : List Byte)
    (h : ∀ b ∈ w, isSpaceByte b = true) :
    trimRightSpace (a ++ w) = trimRightSpace a := by
  unfold trimRightSpace
  rw [List.reverse_append, dropWhile_append_all a.reverse]
  intro b hb
  exact h b (List.mem_reverse.mp hb)

theorem trimRightSpace_decomp (l : List Byte) :
    ∃ w, l = trimRightSpace l ++ w ∧ ∀ b ∈ w, isSpaceByte b = true := by
  refine ⟨(l.reverse.takeWhile isSpaceByte).reverse, ?_, ?_⟩
  · unfold trimRightSpace
    have h := List.takeWhile_append_dropWhile (p := isSpaceByte) (l := l.reverse)
    have := congrArg List.reverse h
    simp only [List.reverse_append, List.reverse_reverse] at this
    exact this.symm
  · intro b hb
    exact List.mem_takeWhile_imp (List.mem_reverse.mp hb)

theorem trimRightSpace_append_sep (a : List Byte) :
    trimRightSpace (a ++ messageSeparatorBytes) = a ++ messageSeparatorBytes := by
  unfold trimRightSpace
  have h1 : (a ++ messageSeparatorBytes).reverse
      = 62 :: (93 :: 93 :: 62 :: 93 :: 93 :: a.reverse) := by
    simp [messageSeparatorBytes]
  rw [h1, List.dropWhile_cons]
  have h2 : isSpaceByte 62 = false := by decide
  simp only [h2, Bool.false_eq_true, if_false]
  rw [← h1, List.reverse_reverse]

theorem lastOccAux_unique {s : List Byte} {k : Nat} (hk : occursAtB s k = true) :
    ∀ m, k ≤ m → (∀ j, j ≤ m → occursAtB s j = true → j = k) →
      lastOccAux s m = some k := by
  intro m
  induction m with
  | zero =>
    intro hkm _
    interval_cases k
    simp [lastOccAux, hk]
  | succ m ih =>
    intro hkm huniq
    by_cases h : occursAtB s (m + 1) = true
    · have hthis : m + 1 = k := huniq (m + 1) (Nat.le_refl _) h
      simp only [lastOccAux, h, if_true]
      exact congrArg some hthis
    · have hk' : k ≤ m := by
        rcases Nat.lt_or_ge k (m + 1) with hlt | hge
        · omega
        · exfalso; have : k = m + 1 := by omega
          rw [this] at hk; exact h hk
      have := ih hk' fun j hj hocc => huniq j (by omega) hocc
      simp only [lastOccAux, h, Bool.false_eq_true, if_false]
      exact this

theorem findLastOcc_unique {s : List Byte} {k : Nat} (hk : occursAtB s k = true)
    (huniq : ∀ j, occursAtB s j = true → j = k) : findLastOcc s = some k := by
  have hlen := occursAtB_length hk
  exact lastOccAux_unique hk s.length (by omega) fun j _ h => huniq j h

/-! ## The framed Reader: loop and drain lemmas -/

theorem readLoop_done (b : List Byte) (e : Option UpErr) (up : Upstream) :
    Reader.readLoop ⟨b, true, e⟩ up = (⟨b, true, e⟩, up) := by
  cases up <;> simp [Reader.readLoop]

theorem processChunk_clean (acc c : List Byte) :
    Reader.processChunk ⟨acc, false, none⟩ c none
      = if endsWithSep (trimRightSpace (acc ++ c))
        then ⟨(acc ++ c).take ((findLastOcc (trimRightSpace (acc ++ c))).getD 0),
              true, none⟩
        else ⟨acc ++ c, false, none⟩ := by
  by_cases h : endsWithSep (trimRightSpace (acc ++ c)) = true <;>
    simp [Reader.processChunk, h]

theorem no_detect_of_short {S : List Byte} {k : Nat}
    (huniq : ∀ j, occursAtB S j = true → j = k)
    {acc rest : List Byte} (hS : acc ++ rest = S) (hlen : acc.length < k + 6) :
    endsWithSep (trimRightSpace acc) = false := by
  by_contra h
  have h' : endsWithSep (trimRightSpace acc) = true := by
    cases hv : endsWithSep (trimRightSpace acc)
    · exact absurd hv h
    · rfl
  obtain ⟨C, hC⟩ := (endsWithSep_iff _).mp h'
  obtain ⟨w, hw, _⟩ := trimRightSpace_decomp acc
  have hSd : S = C ++ (messageSeparatorBytes ++ (w ++ rest)) := by
    rw [← hS, hw, hC]; simp
  have hoccC : occursAtB S C.length = true := by
    rw [hSd]; exact occursAtB_of_append _ _
  have hCk : C.length = k := huniq _ hoccC
  have hlen2 : acc.length = C.length + 6 + w.length := by
    rw [hw, hC]; simp [messageSeparatorBytes]; omega
  omega

theorem detect_of_long {S : List Byte} {k : Nat}
    (hocc : occursAtB S k = true)
    (huniq : ∀ j, occursAtB S j = true → j = k)
    (hws : ∀ b ∈ S.drop (k + 6), isSpaceByte b = true)
    {acc rest : List Byte} (hS : acc ++ rest = S) (hlen : k + 6 ≤ acc.length) :
    trimRightSpace acc = S.take (k + 6) ∧
    endsWithSep (trimRightSpace acc) = true ∧
    findLastOcc (trimRightSpace acc) = some k ∧
    acc.take k = S.take k := by
  have hklen : k + 6 ≤ S.length := occursAtB_length hocc
  obtain ⟨t, ht⟩ := (occursAtB_iff S k).mp hocc
  have hsep6 : messageSeparatorBytes.length = 6 := by decide
  have hA : S.take (k + 6) = S.take k ++ messageSeparatorBytes := by
    rw [List.take_add, ht, ← hsep6, List.take_left]
  have hacc : acc = S.take acc.length := by
    rw [← hS, List.take_left]
  obtain ⟨d, hd⟩ : ∃ d, acc.length = k + 6 + d := ⟨acc.length - (k + 6), by omega⟩
  have haccA : acc = S.take (k + 6) ++ (S.drop (k + 6)).take d := by
    conv_lhs => rw [hacc, hd]
    exact List.take_add S (k + 6) d
  have hmidspace : ∀ b ∈ (S.drop (k + 6)).take d, isSpaceByte b = true :=
    fun b hb => hws b (List.take_subset _ _ hb)
  have htrim : trimRightSpace acc = S.take (k + 6) := by
    conv_lhs => rw [haccA]
    rw [trimRightSpace_append_space _ hmidspace, hA, trimRightSpace_append_sep]
  have hsuf : endsWithSep (trimRightSpace acc) = true := by
    rw [htrim, hA]
    exact (endsWithSep_iff _).mpr ⟨S.take k, rfl⟩
  have hktake : (S.take k).length = k := by
    rw [List.length_take]; omega
  have hoccA : occursAtB (S.take (k + 6)) k = true := by
    rw [occursAtB_iff]
    refine ⟨[], ?_⟩
    rw [List.append_nil, hA]
    have hdl := List.drop_left (S.take k) messageSeparatorBytes
    rw [hktake] at hdl
    exact hdl
  have hlast : findLastOcc (trimRightSpace acc) = some k := by
    rw [htrim]
    exact findLastOcc_unique hoccA fun j hj => huniq j (occursAtB_of_take hj)
  refine ⟨htrim, hsuf, hlast, ?_⟩
  rw [hacc, List.take_take]
  congr 1
  omega

theorem readLoop_detect {S : List Byte} {k : Nat}
    (hocc : occursAtB S k = true)
    (huniq : ∀ j, occursAtB S j = true → j = k)
    (hws : ∀ b ∈ S.drop (k + 6), isSpaceByte b = true) :
    ∀ (cs : List (List Byte)) (acc : List Byte),
      acc ++ cs.flatten = S → acc.length < k + 6 →
      ∃ up', Reader.readLoop ⟨acc, false, none⟩ (cs.map (fun c => (c, none)))
        = (⟨S.take k, true, none⟩, up') := by
  intro cs
  induction cs with
  | nil =>
    intro acc hS hlen
    exfalso
    have h6 := occursAtB_length hocc
    simp only [List.flatten_nil, List.append_nil] at hS
    rw [hS] at hlen
    omega
  | cons c cs ih =>
    intro acc hS hlen
    simp only [List.map_cons]
    rw [Reader.readLoop]
    simp only [Bool.false_eq_true, if_false]
    rw [processChunk_clean]
    simp only [List.flatten_cons, ← List.append_assoc] at hS
    by_cases hl : (acc ++ c).length < k + 6
    · rw [no_detect_of_short huniq hS hl]
      simp only [Bool.false_eq_true, if_false, if_pos rfl]
      exact ih (acc ++ c) hS hl
    · obtain ⟨_, hsuf, hlast, htake⟩ :=
        detect_of_long hocc huniq hws hS (by omega)
      rw [hsuf, hlast]
      simp only [if_true, Option.getD_some, htake, if_pos rfl]
      exact ⟨_, readLoop_done _ _ _⟩

theorem drain_done {m : Nat} (hm : 1 ≤ m) :
    ∀ (fuel : Nat) (b : List Byte) (up : Upstream), b.length < fuel →
      Reader.drain fuel ⟨b, true, none⟩ up m = (b, some UpErr.eof) := by
  intro fuel
  induction fuel with
  | zero => intro b up h; omega
  | succ fuel ih =>
    intro b up h
    rw [Reader.drain]
    cases b with
    | nil =>
      simp [Reader.read, readLoop_done, show m ≠ 0 from by omega]
    | cons x xs =>
      have hne : ((x :: xs : List Byte).isEmpty && m != 0) = false := by
        simp [List.isEmpty]
      simp only [Reader.read, readLoop_done, hne, Bool.false_eq_true, if_false]
      simp only [ne_eq, not_true_eq_false, if_false, if_neg (by simp : ¬(none ≠ none))]
      rw [ih ((x :: xs).drop m) up (by simp at h ⊢; omega)]
      simp [List.take_append_drop]

/-! ## Claim C1 -/

/-- C1 (corrected), counterexample to the claim as stated: for the upstream
stream `"a ]]>]]>x]]>]]>"` delivered as a single chunk, the first occurrence
of the delimiter is at offset 2, and right-trimming the bytes before it gives
`"a"` — but draining the framed `Reader` yields `"a ]]>]]>x"`: truncation
happens at the *last* delimiter occurrence visible when detection fires, and
the whitespace before the delimiter is *not* trimmed. -/
theorem c1_counterexample :
    occursAtB [97, 32, 93, 93, 62, 93, 93, 62, 120, 93, 93, 62, 93, 93, 62] 2 = true ∧
    (∀ j < 2, occursAtB [97, 32, 93, 93, 62, 93, 93, 62, 120, 93, 93, 62, 93, 93, 62] j = false) ∧
    Reader.drain 20 ⟨[], false, none⟩
        [([97, 32, 93, 93, 62, 93, 93, 62, 120, 93, 93, 62, 93, 93, 62], none)] 100
      = ([97, 32, 93, 93, 62, 93, 93, 62, 120], some UpErr.eof) ∧
    [97, 32, 93, 93, 62, 93, 93, 62, 120]
      ≠ trimRightSpace ([97, 32, 93, 93, 62, 93, 93, 62, 120, 93, 93, 62, 93, 93, 62].take 2) := by
  decide

/-- C1 (corrected, amended claim): if the delimiter occurs exactly once in
the upstream byte stream, at offset `k`, and every byte after it is
whitespace, then for every upstream chunking and every caller buffer capacity
`m ≥ 1`, draining the framed `Reader` yields exactly the `k` bytes before the
delimiter (with no trimming applied to them) and then reports end-of-stream. -/
theorem c1_reader_drain (cs : List (List Byte)) (k m fuel : Nat)
    (hocc : occursAtB cs.flatten k = true)
    (huniq : ∀ j < cs.flatten.length, occursAtB cs.flatten j = true → j = k)
    (hws : ∀ b ∈ cs.flatten.drop (k + 6), isSpaceByte b = true)
    (hm : 1 ≤ m) (hfuel : k + 2 ≤ fuel) :
    Reader.drain fuel ⟨[], false, none⟩ (cs.map (fun c => (c, none))) m
      = (cs.flatten.take k, some UpErr.eof) := by
  have huniq' : ∀ j, occursAtB cs.flatten j = true → j = k := by
    intro j hj
    exact huniq j (by have := occursAtB_length hj; omega) hj
  obtain ⟨up', hloop⟩ := readLoop_detect hocc huniq' hws cs []
    (by simp) (by simp only [List.length_nil]; omega)
  have hklen : k + 6 ≤ cs.flatten.length := occursAtB_length hocc
  obtain ⟨fuel, rfl⟩ : ∃ f, fuel = f + 1 := ⟨fuel - 1, by omega⟩
  rw [Reader.drain]
  simp only [Reader.read, hloop]
  by_cases hk : k = 0
  · subst hk
    simp [show m ≠ 0 by omega]
  · have hlen : (cs.flatten.take k).length = k := by
      rw [List.length_take]; omega
    have hne : ((cs.flatten.take k).isEmpty && m != 0) = false := by
      cases hv : cs.flatten.take k with
      | nil => rw [hv] at hlen; simp at hlen; omega
      | cons a l => simp [List.isEmpty]
    simp only [hne, Bool.false_eq_true, if_false]
    simp only [ne_eq, not_true_eq_false, if_false, if_neg (by simp : ¬(none ≠ none))]
    rw [drain_done hm fuel ((cs.flatten.take k).drop m) up'
      (by rw [List.length_drop, hlen]; omega)]
    simp [List.take_append_drop]

/-- C1 witness: the amended claim applied to the concrete stream
`"a]]>]]>\n"` split into three chunks, with caller buffer capacity 1. -/
theorem c1_witness :
    Reader.drain 10 ⟨[], false, none⟩
        ([[97], [93, 93, 62, 93, 93, 62], [10]].map (fun c => (c, none))) 1
      = ([97], some UpErr.eof) :=
  c1_reader_drain [[97], [93, 93, 62, 93, 93, 62], [10]] 1 1 10
    (by decide) (by decide) (by decide) (by decide) (by decide)

/-! ## Claim C3: the preserved upstream error -/

theorem processChunk_preserves_err {r : Reader} {x : Nat} (c : List Byte)
    {e : Option UpErr} (herr : r.err = some (UpErr.custom x))
    (he : e = none ∨ e = some UpErr.eof) :
    (r.processChunk c e).err = some (UpErr.custom x) := by
  unfold Reader.processChunk
  rcases he with rfl | rfl <;>
    simp only [ne_eq, not_true_eq_false, false_and, and_false, if_false] <;>
    (split <;> simp [herr])

theorem readLoop_preserves_err {x : Nat} :
    ∀ (up : Upstream) (r : Reader), r.err = some (UpErr.custom x) →
      (∀ p ∈ up, p.2 = none ∨ p.2 = some UpErr.eof) →
      (r.readLoop up).1.err = some (UpErr.custom x) ∧
      ∀ p ∈ (r.readLoop up).2, p.2 = none ∨ p.2 = some UpErr.eof := by
  intro up
  induction up with
  | nil =>
    intro r herr _
    rw [Reader.readLoop]
    by_cases hd : r.done = true
    · simp [hd, herr]
    · simp only [hd, Bool.false_eq_true, if_false]
      refine ⟨processChunk_preserves_err [] herr (Or.inr rfl), ?_⟩
      simp
  | cons p rest ih =>
    intro r herr hup
    have hp : p.2 = none ∨ p.2 = some UpErr.eof := hup p (List.mem_cons_self p rest)
    have hrest : ∀ q ∈ rest, q.2 = none ∨ q.2 = some UpErr.eof :=
      fun q hq => hup q (List.mem_cons_of_mem _ hq)
    rw [Reader.readLoop]
    by_cases hd : r.done = true
    · simp only [hd, if_true]
      exact ⟨herr, hup⟩
    · simp only [hd, Bool.false_eq_true, if_false]
      obtain ⟨b, e⟩ := p
      simp only at hp ⊢
      have herr' := processChunk_preserves_err (r := r) b herr hp
      by_cases he : e = none
      · subst he
        simp only [if_pos rfl]
        exact ih _ herr' hrest
      · simp only [if_neg he]
        exact ⟨herr', hrest⟩

theorem read_preserves_err {x : Nat} (r : Reader) (up : Upstream) (m : Nat)
    (herr : r.err = some (UpErr.custom x))
    (hup : ∀ p ∈ up, p.2 = none ∨ p.2 = some UpErr.eof) :
    (r.read up m).1.2 = some (UpErr.custom x) ∧
    (r.read up m).2.1.err = some (UpErr.custom x) ∧
    ∀ p ∈ (r.read up m).2.2, p.2 = none ∨ p.2 = some UpErr.eof := by
  obtain ⟨h1, h2⟩ := readLoop_preserves_err up r herr hup
  simp only [Reader.read, h1]
  refine ⟨by simp, by simp, h2⟩

/-- C3 (corrected), counterexample to the claim as stated: the upstream
produces the non-end-of-stream error 1 and then the non-end-of-stream
error 2.  The first `Read` observes and preserves error 1, but the second
`Read` pulls from the upstream again, **overwrites** the preserved error with
error 2, and returns error 2 — not "that same preserved error". -/
theorem c3_counterexample :
    Reader.readSeq ⟨[], false, none⟩
        [([], some (UpErr.custom 1)), ([], some (UpErr.custom 2))] [5, 5, 5]
      = [some (UpErr.custom 1), some (UpErr.custom 2), some (UpErr.custom 2)] ∧
    some (UpErr.custom 2) ≠ some (UpErr.custom 1) := by
  decide

/-- C3 (corrected, amended claim): once a non-end-of-stream upstream error is
preserved in the reader, then **as long as the upstream produces no further
non-end-of-stream error**, every subsequent `Read` (until `Reset`) returns
that same preserved error — in preference to any other result, including the
internal buffer's own end-of-stream condition and even pending buffered
data.  (If the upstream later yields a different non-end-of-stream error, the
preserved error is overwritten and subsequent `Read`s return the newer one,
as the counterexample shows.) -/
theorem c3_preserved_error (r : Reader) (up : Upstream) (x : Nat) (ms : List Nat)
    (herr : r.err = some (UpErr.custom x))
    (hup : ∀ p ∈ up, p.2 = none ∨ p.2 = some UpErr.eof) :
    r.readSeq up ms = ms.map (fun _ => some (UpErr.custom x)) := by
  induction ms generalizing r up with
  | nil => rfl
  | cons m ms ih =>
    obtain ⟨h1, h2, h3⟩ := read_preserves_err r up m herr hup
    simp only [Reader.readSeq, List.map_cons, h1]
    exact congrArg _ (ih _ _ h2 h3)

/-- C3 witness: a reader that has preserved error 7, still holds buffered
bytes, and faces a quiet upstream returns error 7 on three successive reads. -/
theorem c3_witness :
    Reader.readSeq ⟨[1, 2], false, some (UpErr.custom 7)⟩ [([3], none)] [1, 1, 1]
      = [some (UpErr.custom 7), some (UpErr.custom 7), some (UpErr.custom 7)] :=
  c3_preserved_error ⟨[1, 2], false, some (UpErr.custom 7)⟩ [([3], none)] 7 [1, 1, 1]
    rfl (by decide)

/-! ## Claim C2: the decode-time error scan -/

theorem scanReplyErrors_none_iff (l : List ReplyError) :
    scanReplyErrors l = none ↔ ∀ e ∈ l, e.severity ≠ ErrorSeverityError := by
  induction l with
  | nil => simp [scanReplyErrors]
  | cons e rest ih =>
    by_cases h : e.severity = ErrorSeverityError
    · simp [scanReplyErrors, h]
    · simp [scanReplyErrors, h, ih]

theorem scanReplyErrors_some (l : List ReplyError) :
    ∀ e, scanReplyErrors l = some e →
      e.severity = ErrorSeverityError ∧
      ∃ l₁ l₂, l = l₁ ++ e :: l₂ ∧ ∀ x ∈ l₁, x.severity ≠ ErrorSeverityError := by
  induction l with
  | nil => intro e h; exact absurd h (by simp [scanReplyErrors])
  | cons a rest ih =>
    intro e h
    by_cases ha : a.severity = ErrorSeverityError
    · rw [scanReplyErrors, if_pos ha, Option.some.injEq] at h
      subst h
      exact ⟨ha, [], rest, rfl, by simp⟩
    · rw [scanReplyErrors, if_neg ha] at h
      obtain ⟨hsev, l₁, l₂, hsplit, hmem⟩ := ih e h
      refine ⟨hsev, a :: l₁, l₂, by rw [hsplit]; rfl, ?_⟩
      intro x hx
      rcases List.mem_cons.mp hx with rfl | hx'
      · exact ha
      · exact hmem x hx'

/-- C2 (confirmed): `Decoder.Decode` of an rpc-reply returns a non-nil error
iff the reply's `Error` list has an entry of severity `ErrorSeverityError`;
the error returned is the first such entry in document order (everything
before it in the list has a different severity); and a reply whose entries
all have other severities decodes successfully with the entries retained
unchanged in `Reply.Error`. -/
theorem c2_decode_first_error (r : Reply) :
    ((decodeScan r).1.isSome ↔ ∃ e ∈ r.error, e.severity = ErrorSeverityError) ∧
    (∀ e, (decodeScan r).1 = some e →
      e.severity = ErrorSeverityError ∧
      ∃ l₁ l₂, r.error = l₁ ++ e :: l₂ ∧
        ∀ x ∈ l₁, x.severity ≠ ErrorSeverityError) ∧
    ((∀ e ∈ r.error, e.severity ≠ ErrorSeverityError) →
      decodeScan r = (none, r)) := by
  refine ⟨?_, fun e h => scanReplyErrors_some r.error e h, fun hall => ?_⟩
  · rw [← not_iff_not]
    push_neg
    simp only [Option.not_isSome_iff_eq_none, decodeScan]
    exact (scanReplyErrors_none_iff r.error).trans (by simp)
  · unfold decodeScan
    rw [(scanReplyErrors_none_iff r.error).mpr hall]

/-- C2 witness: a reply holding a warning-severity entry followed by two
error-severity entries decodes to the first error-severity entry. -/
theorem c2_witness :
    ((decodeScan ⟨false,
        [⟨0, 0, ErrorSeverityWarning, ⟨"", "", "", [], [], []⟩, "", "w"⟩,
         ⟨0, 0, ErrorSeverityError, ⟨"", "", "", [], [], []⟩, "", "e1"⟩,
         ⟨0, 0, ErrorSeverityError, ⟨"", "", "", [], [], []⟩, "", "e2"⟩]⟩).1.isSome ↔
      ∃ e ∈ [⟨0, 0, ErrorSeverityWarning, ⟨"", "", "", [], [], []⟩, "", "w"⟩,
         ⟨0, 0, ErrorSeverityError, ⟨"", "", "", [], [], []⟩, "", "e1"⟩,
         (⟨0, 0, ErrorSeverityError, ⟨"", "", "", [], [], []⟩, "", "e2"⟩ : ReplyError)],
        e.severity = ErrorSeverityError) :=
  (c2_decode_first_error ⟨false,
    [⟨0, 0, ErrorSeverityWarning, ⟨"", "", "", [], [], []⟩, "", "w"⟩,
     ⟨0, 0, ErrorSeverityError, ⟨"", "", "", [], [], []⟩, "", "e1"⟩,
     ⟨0, 0, ErrorSeverityError, ⟨"", "", "", [], [], []⟩, "", "e2"⟩]⟩).1

/-! ## Claims C7 and C8: the enum text conversions -/

theorem sortSearchAux_bounds (f : Nat → Bool) :
    ∀ (fuel i j : Nat), i ≤ j →
      i ≤ sortSearchAux f fuel i j ∧ sortSearchAux f fuel i j ≤ j := by
  intro fuel
  induction fuel with
  | zero => intro i j h; exact ⟨Nat.le_refl i, h⟩
  | succ fuel ih =>
    intro i j hij
    rw [sortSearchAux]
    by_cases hlt : i < j
    · have hmid1 : i ≤ (i + j) / 2 := by omega
      have hmid2 : (i + j) / 2 < j := by omega
      simp only [hlt, if_true]
      by_cases hf : f ((i + j) / 2) = true
      · simp only [hf, if_true]
        obtain ⟨h1, h2⟩ := ih i ((i + j) / 2) hmid1
        exact ⟨h1, by omega⟩
      · simp only [hf, Bool.false_eq_true, if_false]
        obtain ⟨h1, h2⟩ := ih ((i + j) / 2 + 1) j (by omega)
        exact ⟨by omega, h2⟩
    · simp only [hlt, if_false]
      exact ⟨Nat.le_refl i, hij⟩

theorem sortSearch_le (n : Nat) (f : Nat → Bool) : sortSearch n f ≤ n :=
  (sortSearchAux_bounds f n 0 n (Nat.zero_le n)).2

theorem getD_mem_of_lt {α : Type} (l : List α) (i : Nat) (d : α) (h : i < l.length) :
    l.getD i d ∈ l := by
  induction l generalizing i with
  | nil => simp at h
  | cons a t ih =>
    cases i with
    | zero => simp [List.getD]
    | succ n =>
      rw [List.getD_cons_succ]
      exact List.mem_cons_of_mem a (ih n (by simpa using h))

theorem unmarshalCore_miss (tbl : List (List Byte)) (enumName : List Byte)
    (unknownIdx : Nat) (sText orig : List Byte) (h : sText ∉ tbl) :
    unmarshalCore tbl enumName unknownIdx sText orig
      = (unknownIdx, some ⟨enumName, orig⟩) := by
  simp only [unmarshalCore]
  by_cases hc : sortSearch tbl.length (fun h => !ltBytes (tbl.getD h []) sText)
      ≠ tbl.length ∧
      tbl.getD (sortSearch tbl.length (fun h => !ltBytes (tbl.getD h []) sText)) []
        = sText
  · exfalso
    obtain ⟨hne, heq⟩ := hc
    have hle := sortSearch_le tbl.length (fun h => !ltBytes (tbl.getD h []) sText)
    have hlt : sortSearch tbl.length (fun h => !ltBytes (tbl.getD h []) sText)
        < tbl.length := by omega
    exact h (heq ▸ getD_mem_of_lt tbl _ [] hlt)
  · rw [if_neg hc]

theorem toLowerTrimBytes_all_space {text : List Byte}
    (h : ∀ b ∈ text, isSpaceByte b = true) : toLowerTrimBytes text = [] := by
  unfold toLowerTrimBytes trimSpaceBytes
  have h1 : text.dropWhile isSpaceByte = [] :=
    List.dropWhile_eq_nil_iff.mpr h
  rw [h1]
  rfl

/-- C7 (confirmed): for each of the three enum families and every enum value
`v` with a non-empty table string, parsing the string produced by the
`String()` method yields back exactly `v` with no error; moreover any input
whose whitespace-trimmed, lowercased form equals that string — i.e. any case
variation with surrounding whitespace — parses to the same `v` with no
error. -/
theorem c7_parse_stringify_round_trip :
    ((∀ v < 4, errorSeverityStringArray.getD v [] ≠ [] →
        unmarshalErrorSeverity (severityString v) = (v, none)) ∧
     (∀ v, v < 4 → ∀ text : List Byte, errorSeverityStringArray.getD v [] ≠ [] →
        toLowerTrimBytes text = errorSeverityStringArray.getD v [] →
        unmarshalErrorSeverity text = (v, none))) ∧
    ((∀ v < 6, errorTypeStringArray.getD v [] ≠ [] →
        unmarshalErrorType (typeString v) = (v, none)) ∧
     (∀ v, v < 6 → ∀ text : List Byte, errorTypeStringArray.getD v [] ≠ [] →
        toLowerTrimBytes text = errorTypeStringArray.getD v [] →
        unmarshalErrorType text = (v, none))) ∧
    ((∀ v < 22, errorTagStringArray.getD v [] ≠ [] →
        unmarshalErrorTag (tagString v) = (v, none)) ∧
     (∀ v, v < 22 → ∀ text : List Byte, errorTagStringArray.getD v [] ≠ [] →
        toLowerTrimBytes text = errorTagStringArray.getD v [] →
        unmarshalErrorTag text = (v, none))) := by
  refine ⟨⟨by decide, ?_⟩, ⟨by decide, ?_⟩, ⟨by decide, ?_⟩⟩ <;>
    intro v hv text hne h <;>
    interval_cases v <;>
    first
      | exact absurd rfl hne
      | (simp only [unmarshalErrorSeverity, unmarshalErrorType, unmarshalErrorTag,
          unmarshalFromTable, h]; rfl)

/-- C7 witness: the severity string `"error"`, uppercased and padded with
whitespace, still parses to `ErrorSeverityError` with no error. -/
theorem c7_witness :
    unmarshalErrorSeverity (strBytes " ERROR ") = (1, none) :=
  c7_parse_stringify_round_trip.1.2 1 (by omega) (strBytes " ERROR ")
    (by decide) (by decide)

/-- C8 (confirmed): for each enum family, an input that is empty or all
whitespace parses successfully to the zero variant with no error, and an
input whose lowercased, trimmed form matches no table entry sets the value to
the family's "unknown" variant and returns an `UnmarshalTextError` carrying
the enum's type name and the original, unmodified input. -/
theorem c8_parse_miss_and_empty :
    ((∀ text : List Byte, (∀ b ∈ text, isSpaceByte b = true) →
        unmarshalErrorSeverity text = (ErrorSeverityZero, none)) ∧
     (∀ text : List Byte, toLowerTrimBytes text ∉ errorSeverityStringArray →
        unmarshalErrorSeverity text
          = (ErrorSeverityUnknown, some ⟨strBytes "ErrorSeverity", text⟩))) ∧
    ((∀ text : List Byte, (∀ b ∈ text, isSpaceByte b = true) →
        unmarshalErrorType text = (0, none)) ∧
     (∀ text : List Byte, toLowerTrimBytes text ∉ errorTypeStringArray →
        unmarshalErrorType text
          = (ErrorTypeUnknown, some ⟨strBytes "ErrorType", text⟩))) ∧
    ((∀ text : List Byte, (∀ b ∈ text, isSpaceByte b = true) →
        unmarshalErrorTag text = (0, none)) ∧
     (∀ text : List Byte, toLowerTrimBytes text ∉ errorTagStringArray →
        unmarshalErrorTag text
          = (ErrorTagUnknown, some ⟨strBytes "ErrorTag", text⟩))) := by
  refine ⟨⟨?_, ?_⟩, ⟨?_, ?_⟩, ⟨?_, ?_⟩⟩ <;> intro text h
  · simp only [unmarshalErrorSeverity, unmarshalFromTable, toLowerTrimBytes_all_space h]
    rfl
  · exact unmarshalCore_miss _ _ _ _ _ h
  · simp only [unmarshalErrorType, unmarshalFromTable, toLowerTrimBytes_all_space h]
    rfl
  · exact unmarshalCore_miss _ _ _ _ _ h
  · simp only [unmarshalErrorTag, unmarshalFromTable, toLowerTrimBytes_all_space h]
    rfl
  · exact unmarshalCore_miss _ _ _ _ _ h

/-- C8 witness: whitespace-only input parses to the zero severity, and the
unknown tag text `"bogus"` yields `ErrorTagUnknown` plus an
`UnmarshalTextError` carrying the type name and the original input. -/
theorem c8_witness :
    unmarshalErrorSeverity (strBytes " \t ") = (ErrorSeverityZero, none) ∧
    unmarshalErrorTag (strBytes "bogus")
      = (ErrorTagUnknown, some ⟨strBytes "ErrorTag", strBytes "bogus"⟩) :=
  ⟨c8_parse_miss_and_empty.1.1 (strBytes " \t ") (by decide),
   c8_parse_miss_and_empty.2.2.2 (strBytes "bogus") (by decide)⟩

/-! ## Claim C5: DeadlineConn -/

/-- C5 (corrected), counterexample: with `ReadTimeout = 0`,
`DeadlineConn.Read` still sets a read deadline — to `now + 0`, an instantly
expiring deadline — before the I/O, contrary to the claim that a zero timeout
field means no deadline is set on the underlying connection. -/
theorem c5_counterexample :
    (DeadlineConn.read ⟨0, 5⟩ 100 none (7, none)).2
      = [ConnAction.setReadDeadline 100, ConnAction.connRead] ∧
    ConnAction.setReadDeadline (100 + 0)
      ∈ (DeadlineConn.read ⟨0, 5⟩ 100 none (7, none)).2 := by
  decide

/-- C5 (corrected, amended claim): `DeadlineConn.Read`/`Write`
**unconditionally** set the corresponding deadline to `now + timeout` as
their first action — also when the timeout field is zero; a failure of the
deadline-setter is returned without attempting the I/O; on success the
underlying I/O result is returned unchanged.  The zero-timeout guard lives
one level up, in `Dial` via `Config.hasReadWriteTimeout`: the connection is
left unwrapped (so no deadline is ever set) exactly when both `ReadTimeout`
and `WriteTimeout` are zero. -/
theorem c5_deadline_conn (c : DeadlineConn) (now : Int) (setErr : Option Nat)
    (io : Nat × Option Nat) :
    ((DeadlineConn.read c now setErr io).2.head?
        = some (ConnAction.setReadDeadline (now + c.readTimeout))) ∧
    ((DeadlineConn.write c now setErr io).2.head?
        = some (ConnAction.setWriteDeadline (now + c.writeTimeout))) ∧
    (∀ e, setErr = some e →
      (DeadlineConn.read c now setErr io).1 = (0, some e) ∧
      ConnAction.connRead ∉ (DeadlineConn.read c now setErr io).2 ∧
      (DeadlineConn.write c now setErr io).1 = (0, some e) ∧
      ConnAction.connWrite ∉ (DeadlineConn.write c now setErr io).2) ∧
    (setErr = none →
      (DeadlineConn.read c now setErr io).1 = io ∧
      (DeadlineConn.write c now setErr io).1 = io) ∧
    (dialWrapsDeadlineConn ⟨c.readTimeout, c.writeTimeout⟩ = false ↔
      c.readTimeout = 0 ∧ c.writeTimeout = 0) := by
  refine ⟨?_, ?_, ?_, ?_, ?_⟩
  · cases setErr <;> rfl
  · cases setErr <;> rfl
  · rintro e rfl
    refine ⟨rfl, by simp [DeadlineConn.read], rfl, by simp [DeadlineConn.write]⟩
  · rintro rfl
    exact ⟨rfl, rfl⟩
  · simp only [dialWrapsDeadlineConn, Config.hasReadWriteTimeout]
    by_cases h1 : c.readTimeout = 0 <;> by_cases h2 : c.writeTimeout = 0 <;>
      simp [h1, h2]

/-- C5 witness: a successfully-set deadline lets the underlying I/O result
through unchanged. -/
theorem c5_witness :
    (DeadlineConn.read ⟨3, 4⟩ 10 none (5, none)).1 = (5, none) ∧
    (DeadlineConn.write ⟨3, 4⟩ 10 none (5, none)).1 = (5, none) :=
  (c5_deadline_conn ⟨3, 4⟩ 10 none (5, none)).2.2.2.1 rfl

/-! ## Claim C6: Session.ExecOne / goEncodDecodeOne -/

/-- C6 (code bug): with a never-firing cancellation token and an environment
in which every step succeeds, `goEncodDecodeOne` hands the **method**
argument (tag 1), not the reply argument (tag 2), to the decode stage —
`s.goDecodeOne(ctx, method)` at part_002 line 283 — so the server's reply is
decoded into the method argument and the reply argument is never populated;
and the framed `Reader` is never reset.  When encoding fails, decoding is
skipped and the encode error is returned, as the claim says. -/
theorem c6_exec_one_decode_target :
    (goEncodDecodeOne 1 2 ⟨none, none, none, []⟩).decodedArg = some 1 ∧
    (goEncodDecodeOne 1 2 ⟨none, none, none, []⟩).decodedArg ≠ some 2 ∧
    (goEncodDecodeOne 1 2 ⟨none, none, none, []⟩).readerWasReset = false ∧
    (goEncodDecodeOne 1 2 ⟨none, none, none, []⟩).err = none ∧
    (goEncodDecodeOne 1 2 ⟨some 9, none, none, []⟩).decodedArg = none ∧
    (goEncodDecodeOne 1 2 ⟨some 9, none, none, []⟩).err = some (ExecErr.io 9) := by
  decide

/-! ## Claim C10: Decode leaves the separator, DecodeHello consumes it -/

theorem skipSep_consumes (post : LineStream) :
    ∀ (pre : LineStream) (sepLine : List Byte),
      (∀ l ∈ pre, trimSpaceBytes l ≠ messageSeparatorBytes) →
      trimSpaceBytes sepLine = messageSeparatorBytes →
      skipSep (pre ++ sepLine :: post) = Except.ok post := by
  intro pre
  induction pre with
  | nil =>
    intro sepLine _ hsep
    simp [skipSep, hsep]
  | cons l pre ih =>
    intro sepLine hpre hsep
    have hl : trimSpaceBytes l ≠ messageSeparatorBytes :=
      hpre l (List.mem_cons_self l pre)
    rw [List.cons_append, skipSep, if_neg hl]
    exact ih sepLine (fun q hq => hpre q (List.mem_cons_of_mem _ hq)) hsep

/-- C10 (confirmed): after a successful `Decode` (the `ReplyError`-based
variant), the buffered line stream is left exactly where the XML decode left
it — `Decode` never invokes `SkipSep`, so the message-separator line is still
unconsumed; `DecodeHello`, by contrast, runs `SkipSep` and consumes
everything up to and including the delimiter line. -/
theorem c10_decode_leaves_separator
    (xd : LineStream → Except UpErr (Reply × LineStream))
    (xh : LineStream → Except UpErr (HelloMessage × LineStream))
    (s s' : LineStream) (r : Reply) (h : HelloMessage)
    (pre post : LineStream) (sepLine : List Byte) :
    (xd s = Except.ok (r, s') →
      decoderDecode xd s = Except.ok (scanReplyErrors r.error, s')) ∧
    (xh s = Except.ok (h, pre ++ sepLine :: post) →
      (∀ l ∈ pre, trimSpaceBytes l ≠ messageSeparatorBytes) →
      trimSpaceBytes sepLine = messageSeparatorBytes →
      decoderDecodeHello xh s = Except.ok (h, post)) := by
  constructor
  · intro hxd
    simp [decoderDecode, hxd]
  · intro hxh hpre hsep
    simp [decoderDecodeHello, hxh, skipSep_consumes post pre sepLine hpre hsep]

/-- C10 witness: an XML decode that consumes exactly the first line leaves
the separator line in the stream after `Decode`, and `DecodeHello` under the
same consumption removes it. -/
theorem c10_witness :
    decoderDecode (fun st => Except.ok ((⟨false, []⟩ : Reply), st.drop 1))
        [[60, 97, 62], [93, 93, 62, 93, 93, 62]]
      = Except.ok (none, [[93, 93, 62, 93, 93, 62]]) ∧
    decoderDecodeHello (fun st => Except.ok ((⟨[], 4⟩ : HelloMessage), st.drop 1))
        [[60, 97, 62], [93, 93, 62, 93, 93, 62]]
      = Except.ok (⟨[], 4⟩, []) :=
  ⟨(c10_decode_leaves_separator (fun st => Except.ok ((⟨false, []⟩ : Reply), st.drop 1))
      (fun st => Except.ok ((⟨[], 4⟩ : HelloMessage), st.drop 1))
      [[60, 97, 62], [93, 93, 62, 93, 93, 62]] [[93, 93, 62, 93, 93, 62]]
      ⟨false, []⟩ ⟨[], 4⟩ [] [] [93, 93, 62, 93, 93, 62]).1 rfl,
   (c10_decode_leaves_separator (fun st => Except.ok ((⟨false, []⟩ : Reply), st.drop 1))
      (fun st => Except.ok ((⟨[], 4⟩ : HelloMessage), st.drop 1))
      [[60, 97, 62], [93, 93, 62, 93, 93, 62]] [[93, 93, 62, 93, 93, 62]]
      ⟨false, []⟩ ⟨[], 4⟩ [] [] [93, 93, 62, 93, 93, 62]).2 rfl
      (by simp) (by decide)⟩

/-! ## Claim C9: truncation at the last occurrence, and discarding -/

theorem lastOccAux_spec (s : List Byte) :
    ∀ m i, lastOccAux s m = some i →
      occursAtB s i = true ∧ i ≤ m ∧
      ∀ j, i < j → j ≤ m → occursAtB s j = false := by
  intro m
  induction m with
  | zero =>
    intro i h
    by_cases h0 : occursAtB s 0 = true
    · rw [lastOccAux, if_pos h0, Option.some.injEq] at h
      subst h
      exact ⟨h0, Nat.le_refl 0, fun j hj hj' => by omega⟩
    · rw [lastOccAux, if_neg h0] at h
      exact absurd h (by simp)
  | succ m ih =>
    intro i h
    by_cases hm : occursAtB s (m + 1) = true
    · rw [lastOccAux, if_pos hm, Option.some.injEq] at h
      subst h
      exact ⟨hm, Nat.le_refl _, fun j hj hj' => by omega⟩
    · rw [lastOccAux, if_neg hm] at h
      obtain ⟨h1, h2, h3⟩ := ih i h
      refine ⟨h1, by omega, fun j hj hj' => ?_⟩
      by_cases hje : j = m + 1
      · subst hje
        cases hv : occursAtB s (m + 1)
        · rfl
        · exact absurd hv hm
      · exact h3 j hj (by omega)

theorem lastOccAux_isSome (s : List Byte) {j : Nat} (hj : occursAtB s j = true) :
    ∀ m, j ≤ m → ∃ i, lastOccAux s m = some i := by
  intro m
  induction m with
  | zero =>
    intro hm
    interval_cases j
    exact ⟨0, by rw [lastOccAux, if_pos hj]⟩
  | succ m ih =>
    intro hm
    by_cases hsm : occursAtB s (m + 1) = true
    · exact ⟨m + 1, by rw [lastOccAux, if_pos hsm]⟩
    · have hj' : j ≤ m := by
        rcases Nat.lt_or_ge j (m + 1) with h | h
        · omega
        · exfalso
          have : j = m + 1 := by omega
          rw [this] at hj
          exact hsm hj
      obtain ⟨i, hi⟩ := ih hj'
      exact ⟨i, by rw [lastOccAux, if_neg hsm]; exact hi⟩

theorem findLastOcc_spec {s : List Byte} (h : endsWithSep s = true) :
    occursAtB s ((findLastOcc s).getD 0) = true ∧
    ∀ j, occursAtB s j = true → j ≤ (findLastOcc s).getD 0 := by
  obtain ⟨c, rfl⟩ := (endsWithSep_iff s).mp h
  have hocc : occursAtB (c ++ messageSeparatorBytes) c.length = true := by
    have := occursAtB_of_append c []
    simpa using this
  have hlen : c.length ≤ (c ++ messageSeparatorBytes).length := by
    simp
  obtain ⟨i, hi⟩ := lastOccAux_isSome _ hocc _ hlen
  obtain ⟨h1, h2, h3⟩ := lastOccAux_spec _ _ _ hi
  have hfl : findLastOcc (c ++ messageSeparatorBytes) = some i := hi
  rw [hfl]
  refine ⟨h1, fun j hj => ?_⟩
  simp only [Option.getD_some]
  by_contra hgt
  have hjlen := occursAtB_length hj
  have := h3 j (by omega) (by omega)
  rw [hj] at this
  exact absurd this (by decide)

/-- C9 (confirmed): when the delimiter check in `Read`'s loop fires, the
internal buffer is truncated at the index returned by
`bytes.LastIndex` — which is the **last** occurrence of `]]>]]>` within the
right-trimmed accumulation (it is an occurrence, and no occurrence lies
beyond it); the reader keeps exactly the bytes before that index and drops
everything from it on; every later `Read` before a `Reset` serves only the
kept bytes and then end-of-stream; and `Reset` clears the buffer, the done
flag and the preserved error entirely, so the dropped bytes cannot reappear
after a `Reset` either. -/
theorem c9_truncate_last_occurrence (acc chunk : List Byte)
    (hdet : endsWithSep (trimRightSpace (acc ++ chunk)) = true) :
    occursAtB (trimRightSpace (acc ++ chunk))
        ((findLastOcc (trimRightSpace (acc ++ chunk))).getD 0) = true ∧
    (∀ j, occursAtB (trimRightSpace (acc ++ chunk)) j = true →
      j ≤ (findLastOcc (trimRightSpace (acc ++ chunk))).getD 0) ∧
    Reader.processChunk ⟨acc, false, none⟩ chunk none
      = ⟨(acc ++ chunk).take ((findLastOcc (trimRightSpace (acc ++ chunk))).getD 0),
          true, none⟩ ∧
    (∀ m fuel, 1 ≤ m →
      ((acc ++ chunk).take
          ((findLastOcc (trimRightSpace (acc ++ chunk))).getD 0)).length < fuel →
      ∀ up, Reader.drain fuel
          ⟨(acc ++ chunk).take
            ((findLastOcc (trimRightSpace (acc ++ chunk))).getD 0), true, none⟩ up m
        = ((acc ++ chunk).take
            ((findLastOcc (trimRightSpace (acc ++ chunk))).getD 0), some UpErr.eof)) ∧
    (∀ r : Reader, r.reset = ⟨[], false, none⟩) := by
  obtain ⟨h1, h2⟩ := findLastOcc_spec hdet
  refine ⟨h1, h2, ?_, ?_, fun r => rfl⟩
  · rw [processChunk_clean, if_pos hdet]
  · intro m fuel hm hfuel up
    exact drain_done hm fuel _ up hfuel

/-- C9 witness: accumulating `"a"` then `"]]>]]>\n"` fires the check and
truncates the buffer to `"a"`. -/
theorem c9_witness :
    Reader.processChunk ⟨[97], false, none⟩ [93, 93, 62, 93, 93, 62, 10] none
      = ⟨[97], true, none⟩ :=
  ((c9_truncate_last_occurrence [97] [93, 93, 62, 93, 93, 62, 10]
      (by decide)).2.2.1).trans (by decide)

/-! ## Claim C4: the encode–decode round trip -/

/-- C4 (corrected), counterexample: encoding the default-wrapped method whose
payload is a single `get-config` element produces a document whose root
element is `rpc`, and decoding it into `Reply` fails with an element-name
mismatch (the `encoding/xml` name check against the `rpc-reply` field tag) —
`Decode(Encode(m))` does not succeed. -/
theorem c4_counterexample :
    decodeReplyTree (encoderEncode (WrapMethod "1" [XMLTree.elem "get-config" [] []]))
      = Except.error (XMLDecodeError.nameMismatch "rpc-reply" "rpc") := by
  rfl

/-- C4 (corrected, amended claim): for every `Method` with the standard `rpc`
envelope (and payload elements not named `ok` or `rpc-error`), decoding the
encoded document into `Reply` always fails with the `rpc-reply`-vs-`rpc`
name mismatch; the round trip holds only once the envelope carries the reply
element name: decoding a document with root `rpc-reply` and the method's
attributes and children yields a `Reply` whose decoded body (`Data`)
structurally equals `m.Method`, with no `ok` marker and no reply errors. -/
theorem c4_encode_decode (m : Method) (hname : m.xmlName = "rpc")
    (hbody : ∀ c ∈ m.method, c.name ≠ "ok" ∧ c.name ≠ "rpc-error") :
    decodeReplyTree (encoderEncode m)
      = Except.error (XMLDecodeError.nameMismatch "rpc-reply" "rpc") ∧
    decodeReplyTree (XMLTree.elem "rpc-reply" m.attr m.method)
      = Except.ok ⟨m.attr, false, [], m.method⟩ := by
  constructor
  · simp [decodeReplyTree, encoderEncode, XMLTree.name, hname]
  · have hok : m.method.any (fun c => c.name == "ok") = false := by
      rw [List.any_eq_false]
      intro c hc
      simp only [beq_iff_eq]
      exact (hbody c hc).1
    have herr : m.method.filter (fun c => c.name == "rpc-error") = [] := by
      rw [List.filter_eq_nil_iff]
      intro c hc
      simp only [beq_iff_eq]
      exact (hbody c hc).2
    have hdata : m.method.filter
        (fun c => c.name != "ok" && c.name != "rpc-error") = m.method := by
      rw [List.filter_eq_self]
      intro c hc
      simp only [Bool.and_eq_true, bne_iff_ne]
      exact hbody c hc
    show Except.ok
        ({ attr := m.attr,
           ok := m.method.any (fun c => c.name == "ok"),
           error := m.method.filter (fun c => c.name == "rpc-error"),
           data := m.method.filter
             (fun c => c.name != "ok" && c.name != "rpc-error") } : ReplyTree)
      = Except.ok ⟨m.attr, false, [], m.method⟩
    rw [hok, herr, hdata]

/-- C4 witness: the amended round trip at a concrete method with one
`get-config` payload element. -/
theorem c4_witness :
    decodeReplyTree
        (XMLTree.elem "rpc-reply" [("message-id", "1")]
          [XMLTree.elem "get-config" [] []])
      = Except.ok ⟨[("message-id", "1")], false, [], [XMLTree.elem "get-config" [] []]⟩ :=
  (c4_encode_decode ⟨"rpc", [("message-id", "1")], [XMLTree.elem "get-config" [] []]⟩
    rfl
    (by
      intro c hc
      rw [List.mem_singleton] at hc
      subst hc
      exact ⟨by decide, by decide⟩)).2

end Netconf
